import Mathlib

/-!
# Verification of the CryptoRank scraper orchestration core

Shallow embedding of the resilient-scraping core of the `projects-scrapper`
repository: the retry policy of `FundScraper.scrapeFund` /
`FundingRoundsScraper.scrapePage`, the cache loader `loadCache`, the
merge-and-persist logic of `savePartialResults` / the final merge in `main`,
the inter-request throttle, the amount parser `parseRaiseAmount`, and
`extractUniqueProjects`.

Modelling conventions:
* JavaScript strings are `String`, `null`/`undefined` string fields are
  `Option String`; JS truthiness of a string field is `truthy` (empty
  string and `null` are falsy).
* The JS `Map` is an association list with `mapSet` implementing
  `Map.set` semantics (overwrite in place, append fresh keys at the end).
* Wall-clock values (`generatedAt`, `scrapedAt`, `durationMs`) and pure
  side effects (console output, screenshots) are elided; the throttle and
  persistence calls of the main loop are recorded as an event trace.
* `Array.prototype.sort` (stable in Node; a stable sort is uniquely
  determined by the comparator) is `List.insertionSort`, which is stable;
  `String.prototype.localeCompare` is modelled as lexicographic
  comparison by code point.
* JS floating-point numbers produced by `parseFloat` are modelled as exact
  rationals.
-/

namespace CryptoRankScraper

/-- JS truthiness of a nullable string: `null`/`undefined` and `""` are falsy. -/
def truthy : Option String → Bool
  | none => false
  | some s => s != ""

/-- The JS idiom `x || null`: keeps a truthy string, collapses `""` to `null`. -/
def orNull (o : Option String) : Option String :=
  if truthy o then o else none

/-! ## Extracted social links (`extractSocialLinks` result shape, `scraper.js`) -/

/-- The object returned by `FundScraper.extractSocialLinks`: all eleven
social-link slots, each a URL or `null`. -/
structure Links where
  website : Option String
  twitter : Option String
  telegram : Option String
  discord : Option String
  medium : Option String
  linkedin : Option String
  github : Option String
  youtube : Option String
  facebook : Option String
  instagram : Option String
  reddit : Option String
deriving DecidableEq

/-- The all-`null` links object (`result` initial value in
`extractSocialLinks`, and the exhausted-retries return of `scrapeFund`). -/
def noLinks : Links :=
  ⟨none, none, none, none, none, none, none, none, none, none, none⟩

/-- `FundScraper.hasAnyLinks`: `Object.values(links).some(v => v !== null)`.
Note this checks `!== null`, not truthiness. -/
def hasAnyLinks (l : Links) : Bool :=
  l.website.isSome || l.twitter.isSome || l.telegram.isSome || l.discord.isSome ||
  l.medium.isSome || l.linkedin.isSome || l.github.isSome || l.youtube.isSome ||
  l.facebook.isSome || l.instagram.isSome || l.reddit.isSome

/-! ## Retry policy (`FundScraper.scrapeFund`) -/

/-- One attempt of the supplied fetch capability: either the page navigates
and `extractSocialLinks` yields a `Links` object, or an exception with a
message is raised (navigation timeout, protocol error, ...). -/
inductive FetchOutcome where
  | ok (links : Links)
  | err (msg : String)
deriving DecidableEq

/-- The value returned by `scrapeFund`: the eleven link slots spread
together with the `error` field (`{ ...links, error }`). -/
structure ScrapeOut where
  links : Links
  error : Option String
deriving DecidableEq

/-- Observable outcome of one `scrapeFund` call: how many times the fetch
body ran, how many inter-attempt `delay(RETRY_DELAY_MS)` calls were made,
and the returned object. -/
structure RetryOutcome where
  attempts : Nat
  delays : Nat
  out : ScrapeOut
deriving DecidableEq

/-- `lastError?.message || 'Unknown error'` (JS `||` also replaces an empty
message). -/
def errMsgOr : Option String → String
  | some s => if s = "" then "Unknown error" else s
  | none => "Unknown error"

/-- The exhausted-retries return object of `scrapeFund`: every link slot
`null`, `error` set from the last failure. -/
def exhaustedOut (lastErr : Option String) : ScrapeOut :=
  ⟨noLinks, some (errMsgOr lastErr)⟩

/-- The `for (let attempt = 1; attempt <= MAX_RETRIES; attempt++)` loop of
`scrapeFund`. `fetch i` is the outcome of the `(i+1)`-st attempt of the
body up to `extractSocialLinks`; `rem` counts the attempts still allowed
(including the current one); `lastErr` is the `lastError` variable.
Branches, in source order: a zero-link extraction with attempts remaining
throws `'No social links found - retrying'` (caught by the same `catch`,
which delays and continues); a zero-link extraction on the last attempt
returns the links with `error` set; otherwise the links are returned with
`error: null`. A raised failure delays and continues while attempts
remain, else the loop ends and the all-`null` failure object is returned. -/
def scrapeFundGo (fetch : Nat → FetchOutcome) (lastErr : Option String) :
    Nat → RetryOutcome
  | 0 => ⟨0, 0, exhaustedOut lastErr⟩
  | rem + 1 =>
    match fetch 0 with
    | .ok links =>
      if hasAnyLinks links = false ∧ rem ≠ 0 then
        let r := scrapeFundGo (fun i => fetch (i + 1))
          (some "No social links found - retrying") rem
        ⟨r.attempts + 1, r.delays + 1, r.out⟩
      else if hasAnyLinks links = false then
        ⟨1, 0, ⟨links, some "No social links found"⟩⟩
      else
        ⟨1, 0, ⟨links, none⟩⟩
    | .err msg =>
      if rem ≠ 0 then
        let r := scrapeFundGo (fun i => fetch (i + 1)) (some msg) rem
        ⟨r.attempts + 1, r.delays + 1, r.out⟩
      else
        ⟨1, 0, exhaustedOut (some msg)⟩

/-- `scrapeFund` with the attempt budget made explicit (`MAX_RETRIES = 3`
in the source). -/
def scrapeFund (fetch : Nat → FetchOutcome) (maxAttempts : Nat) : RetryOutcome :=
  scrapeFundGo fetch none maxAttempts

/-- `MAX_RETRIES` from `scraper.js`. -/
def MAX_RETRIES : Nat := 3

/-! ## Data model (`index.js`, i.e. the tier-1/2 VC orchestrator) -/

/-- A fund as returned by `fetchFundsByTiers` (`api.js`): the Target of the
VC orchestrator. -/
structure Fund where
  id : Nat
  key : String
  name : String
  tier : Nat
  type : String
deriving DecidableEq

/-- A persisted Record of the VC orchestrator. The nine social slots other
than `website`/`twitter` are top-level properties only when present in a
file written by other producers; records built by `main` leave them
`undefined` (here `none`) and nest found links under `other_socials`. -/
structure Record where
  id : Option Nat
  key : String
  name : String
  tier : Nat
  type : String
  url : Option String
  website : Option String
  twitter : Option String
  telegram : Option String
  discord : Option String
  medium : Option String
  linkedin : Option String
  github : Option String
  youtube : Option String
  facebook : Option String
  instagram : Option String
  reddit : Option String
  otherSocials : List (String × String)
  error : Option String
deriving DecidableEq

/-- The `{ metadata, data }` document persisted to the output file.
`generatedAt`, `source`, `tiers` and `durationMs` are wall-clock/constant
metadata and are elided; `unfinished` is the `partial` flag. -/
structure ResultSet where
  data : List Record
  unfinished : Bool
  totalFunds : Nat
  successfulScrapes : Nat
  failedScrapes : Nat
deriving DecidableEq

/-- The state of the durable output file as `loadCache` observes it:
missing, present but not parseable as `{ ..., data: [...] }`, or a valid
ResultSet. -/
inductive FileState where
  | absent
  | unparseable
  | valid (rs : ResultSet)
deriving DecidableEq

/-! ## IncrementalStore (`loadCache`, `savePartialResults` / final merge) -/

/-- `Map.set` on an association list: overwrite an existing key in place,
append a fresh key at the end (JS `Map` insertion-order semantics). -/
def mapSet (m : List (String × Record)) (k : String) (v : Record) :
    List (String × Record) :=
  if m.any (fun kv => kv.1 = k) then
    m.map (fun kv => if kv.1 = k then (k, v) else kv)
  else m ++ [(k, v)]

/-- The `hasAnyLink` check of `loadCache`: a truthy value in any of the
eleven top-level social-link properties. -/
def hasAnyLink (f : Record) : Bool :=
  truthy f.website || truthy f.twitter || truthy f.telegram || truthy f.discord ||
  truthy f.medium || truthy f.linkedin || truthy f.github || truthy f.youtube ||
  truthy f.facebook || truthy f.instagram || truthy f.reddit

/-- The caching condition of `loadCache`: `!fund.error && hasAnyLink`
(JS truthiness on `error`). -/
def cacheEligible (f : Record) : Bool :=
  !truthy f.error && hasAnyLink f

/-- `loadCache`: missing file and parse failure (including a parsed
document without a `data` array) give an empty map and never throw;
otherwise each eligible record of `data` is `set` into the map keyed by
its `key`. -/
def loadCache : FileState → List (String × Record)
  | .absent => []
  | .unparseable => []
  | .valid rs =>
    rs.data.foldl (fun cache f => if cacheEligible f then mapSet cache f.key f else cache) []

/-- The backwards-compatibility fix-up applied to each cached entry before
merging: `if (!data.url) data.url = 'https://cryptorank.io/funds/' + key`. -/
def ensureUrl (k : String) (r : Record) : Record :=
  if truthy r.url then r else { r with url := some ("https://cryptorank.io/funds/" ++ k) }

/-- `allResultsMap`: cached entries first, then the new results, each via
`Map.set`, so a new record overwrites a cached one sharing its key. -/
def buildAllResultsMap (cache : List (String × Record)) (newResults : List Record) :
    List (String × Record) :=
  let m := cache.foldl (fun m kv => mapSet m kv.1 (ensureUrl kv.1 kv.2)) []
  newResults.foldl (fun m r => mapSet m r.key r) m

/-- `includeTier2 ? [1, 2] : [1]`. -/
def targetTiers (includeTier2 : Bool) : List Nat :=
  if includeTier2 then [1, 2] else [1]

/-- Lexicographic comparison of character lists by code point. -/
def charListLE : List Char → List Char → Bool
  | [], _ => true
  | _ :: _, [] => false
  | a :: as, b :: bs =>
    if a.val < b.val then true
    else if b.val < a.val then false
    else charListLE as bs

/-- The sort comparator `(a, b) => a.tier - b.tier || a.name.localeCompare(b.name)`
as a `Bool`-valued total preorder (`localeCompare` modelled as lexicographic
comparison by code point). -/
def recordLE (a b : Record) : Bool :=
  decide (a.tier < b.tier) ||
    (decide (a.tier = b.tier) && charListLE a.name.data b.name.data)

/-- The merge performed both by `savePartialResults` and by step 5 of
`main`: build `allResultsMap`, keep the values whose `tier` is targeted,
sort by tier then name. Node's `Array.prototype.sort` is stable, and a
stable sort is uniquely determined by the comparator, so it is modelled
by the (stable, structurally recursive) insertion sort. -/
def mergeResults (cache : List (String × Record)) (newResults : List Record)
    (includeTier2 : Bool) : List Record :=
  let m := buildAllResultsMap cache newResults
  ((m.map Prod.snd).filter
      (fun f => (targetTiers includeTier2).contains f.tier)).insertionSort
    (fun a b => recordLE a b = true)

/-! ## Per-target result construction (step 4 of `main`) -/

/-- `Object.entries(otherLinks)` filtered to non-`null` values: the
`other_socials` object (the nine slots other than `website`/`twitter`,
checked with `value !== null`). -/
def otherSocialsOf (l : Links) : List (String × String) :=
  ([("telegram", l.telegram), ("discord", l.discord), ("medium", l.medium),
    ("linkedin", l.linkedin), ("github", l.github), ("youtube", l.youtube),
    ("facebook", l.facebook), ("instagram", l.instagram),
    ("reddit", l.reddit)]).filterMap (fun kv => kv.2.map (fun v => (kv.1, v)))

/-- The `result` object `main` pushes onto `newResults` for one fund, built
from the `scrapeFund` return value (`scrapedAt` elided). -/
def mkResult (fund : Fund) (s : ScrapeOut) : Record :=
  { id := some fund.id
    key := fund.key
    name := fund.name
    tier := fund.tier
    type := fund.type
    url := some ("https://cryptorank.io/funds/" ++ fund.key)
    website := orNull s.links.website
    twitter := orNull s.links.twitter
    telegram := none, discord := none, medium := none, linkedin := none
    github := none, youtube := none, facebook := none, instagram := none
    reddit := none
    otherSocials := otherSocialsOf s.links
    error := orNull s.error }

/-! ## Orchestrator (`main` of `index.js`) -/

/-- Observable actions of the scraping loop: a browser fetch for one
target (`scrapeFund`), an incremental persist (`savePartialResults`), and
the inter-request throttle (`delay(DELAY_BETWEEN_REQUESTS_MS)`). -/
inductive Event where
  | fetch (key : String)
  | persist
  | throttleDelay
deriving DecidableEq, BEq

/-- The event trace of the `for` loop of step 4: fetch, persist, and then
`delay` unless this was the last target (`i < fundsToScrape.length - 1`). -/
def loopEvents : List Fund → List Event
  | [] => []
  | [f] => [.fetch f.key, .persist]
  | f :: g :: rest => .fetch f.key :: .persist :: .throttleDelay :: loopEvents (g :: rest)

/-- What one `main` run does: the loop's event trace and the durable file
it leaves behind. -/
structure RunResult where
  events : List Event
  finalFile : FileState
deriving DecidableEq

/-- `main` as a function of the fetched fund list, an oracle giving the
`scrapeFund` return value per fund key, the tier flag, and the prior state
of the output file. When every fund is cached the run returns before
connecting (no fetch, no write, file untouched); otherwise it scrapes the
uncached funds, merges with the cache and persists the merged ResultSet
(the intermediate partial saves write prefixes of the same merge and are
recorded as `persist` events). -/
def runMain (funds : List Fund) (oracle : String → ScrapeOut) (includeTier2 : Bool)
    (prior : FileState) : RunResult :=
  let cache := loadCache prior
  let fundsToScrape := funds.filter (fun f => (List.lookup f.key cache).isNone)
  if fundsToScrape = [] then
    { events := [], finalFile := prior }
  else
    let newResults := fundsToScrape.map (fun f => mkResult f (oracle f.key))
    let allResults := mergeResults cache newResults includeTier2
    { events := loopEvents fundsToScrape
      finalFile := .valid
        { data := allResults
          unfinished := false
          totalFunds := allResults.length
          successfulScrapes := (allResults.filter (fun f => !truthy f.error)).length
          failedScrapes := (allResults.filter (fun f => truthy f.error)).length } }

/-! ## `parseRaiseAmount` (`funding-rounds-scraper.js`; `parseAmount` in
`project-details-scraper.js` is identical) -/

/-- The character class `\s` of the cleaning regex `/[$,\s]/g`. JS `\s`
matches the ASCII whitespace characters and the Unicode ones: U+00A0,
U+1680, U+2000..U+200A, U+2028, U+2029, U+202F, U+205F, U+3000 and
U+FEFF. -/
def isJsSpace (c : Char) : Bool :=
  c = ' ' || c = '\t' || c = '\n' || c = '\r' || c = '\x0b' || c = '\x0c' ||
  c = '\u00A0' || c = '\u1680' || ('\u2000' ≤ c && c ≤ '\u200A') ||
  c = '\u2028' || c = '\u2029' || c = '\u202F' || c = '\u205F' ||
  c = '\u3000' || c = '\uFEFF'

/-- `amountStr.replace(/[$,\s]/g, '').toUpperCase()` as a character list. -/
def cleanAmount (s : String) : List Char :=
  (s.toList.filter (fun c => !(c = '$' || c = ',' || isJsSpace c))).map Char.toUpper

/-- The character class `[\d.]`. -/
def isDigitOrDot (c : Char) : Bool :=
  c.isDigit || c = '.'

/-- `cleaned.match(/^([\d.]+)([KMB])?$/)`: the capture groups when the
whole cleaned string matches, `none` otherwise. Since `K`/`M`/`B` are not
in `[\d.]`, the string matches exactly when it is nonempty and all
digits-and-dots, optionally ending in one `K`/`M`/`B`. -/
def amountMatch (cs : List Char) : Option (List Char × Option Char) :=
  match cs.getLast? with
  | none => none
  | some last =>
    if last = 'K' || last = 'M' || last = 'B' then
      if cs.dropLast ≠ [] ∧ cs.dropLast.all isDigitOrDot then
        some (cs.dropLast, some last)
      else none
    else
      if cs.all isDigitOrDot then some (cs, none) else none

/-- Value of a digit string read in base 10. -/
def digitsVal (ds : List Char) : Nat :=
  ds.foldl (fun n c => 10 * n + (c.toNat - '0'.toNat)) 0

/-- `parseFloat` on a digits-and-dots string (the only inputs it receives
here): the longest leading `digits [. digits]` prefix, `none` when there
is no leading number (JS `NaN`). Floats are modelled as exact rationals. -/
def jsParseFloatDigits (cs : List Char) : Option ℚ :=
  let intPart := cs.takeWhile Char.isDigit
  match cs.dropWhile Char.isDigit with
  | '.' :: rest =>
    let fracPart := rest.takeWhile Char.isDigit
    if intPart = [] ∧ fracPart = [] then none
    else some ((digitsVal intPart : ℚ) + (digitsVal fracPart : ℚ) / (10 : ℚ) ^ fracPart.length)
  | _ =>
    if intPart = [] then none else some ((digitsVal intPart : ℚ))

/-- The `switch (multiplier)` of `parseRaiseAmount`. -/
def multVal : Option Char → ℚ
  | some 'K' => 1000
  | some 'M' => 1000000
  | some 'B' => 1000000000
  | _ => 1

/-- `parseRaiseAmount`: `null` on `''`/`'-'`/`'N/A'`, on a cleaned string
that does not match `^([\d.]+)([KMB])?$`, and on a matched number part
that `parseFloat` cannot read; otherwise the parsed leading number times
the suffix multiplier. -/
def parseRaiseAmount (s : String) : Option ℚ :=
  if s = "" ∨ s = "-" ∨ s = "N/A" then none
  else
    match amountMatch (cleanAmount s) with
    | none => none
    | some (body, suffix) =>
      match jsParseFloatDigits body with
      | none => none
      | some num => some (num * multVal suffix)

/-! ## `extractUniqueProjects` (`project-details.js`) -/

/-- One funding round as read back from `funding-rounds.json` (only the
fields `extractUniqueProjects` touches). -/
structure Round where
  projectKey : Option String
  projectName : Option String
  projectUrl : Option String
deriving DecidableEq

/-- The `{ projectKey, projectName, projectUrl }` object pushed per new
key. -/
structure Proj where
  projectKey : Option String
  projectName : Option String
  projectUrl : Option String
deriving DecidableEq

/-- Truthiness of `round.projectKey`. -/
def truthyKey (r : Round) : Bool :=
  truthy r.projectKey

/-- The projection pushed onto `projects`. -/
def mkProj (r : Round) : Proj :=
  ⟨r.projectKey, r.projectName, r.projectUrl⟩

/-- The `for (const round of fundingRounds)` loop of
`extractUniqueProjects`, with `seen` the `Set` of keys already pushed:
`if (round.projectKey && !seen.has(round.projectKey))`. -/
def extractGo (seen : List String) : List Round → List Proj
  | [] => []
  | r :: rest =>
    match r.projectKey with
    | some k =>
      if k ≠ "" ∧ k ∉ seen then mkProj r :: extractGo (k :: seen) rest
      else extractGo seen rest
    | none => extractGo seen rest

/-- `extractUniqueProjects`. -/
def extractUniqueProjects (rounds : List Round) : List Proj :=
  extractGo [] rounds

/-- Keep the first element for each value of `f`, in first-occurrence
order. -/
def firstDedupBy (f : Round → Option String) : List Round → List Round
  | [] => []
  | x :: xs => x :: firstDedupBy f (xs.filter (fun y => f y ≠ f x))
termination_by l => l.length
decreasing_by
  exact Nat.lt_succ_of_le (List.length_filter_le _ _)

/-- Modelled from the claim for comparison (refinement target): one entry
per distinct truthy `projectKey`, taken from that key's first occurrence
in input order and listed in first-occurrence order; rounds with a falsy
key contribute nothing. -/
def extractUniqueProjectsSpec (rounds : List Round) : List Proj :=
  (firstDedupBy Round.projectKey (rounds.filter truthyKey)).map mkProj

/-- A round's key is not in the `seen` set (proof scaffolding for the
`extractGo` accumulator). -/
def keyUnseen (seen : List String) (r : Round) : Bool :=
  match r.projectKey with
  | some k => !(seen.contains k)
  | none => true

/-- The characters matched by `[\d.]`. -/
def digitDotChars : List Char :=
  ['0', '1', '2', '3', '4', '5', '6', '7', '8', '9', '.']

/-! ## Concrete fixtures used by witnesses and counterexamples -/

/-- A record with every optional field empty. -/
def baseRec : Record :=
  { id := none, key := "", name := "", tier := 1, type := "", url := none
    website := none, twitter := none, telegram := none, discord := none
    medium := none, linkedin := none, github := none, youtube := none
    facebook := none, instagram := none, reddit := none
    otherSocials := [], error := none }

/-- A links object with only a website. -/
def wLinks : Links :=
  { noLinks with website := some "https://a.io" }

/-- A fetch function that fails once and then extracts a website. -/
def wFetch : Nat → FetchOutcome :=
  fun i => if i < 1 then .err "boom" else .ok wLinks

/-- The `data` array of the persisted file, empty when no valid file is
present. -/
def fileData : FileState → List Record
  | .valid rs => rs.data
  | _ => []

/-- A tier-1 fund with key `a`. -/
def fundA : Fund := ⟨1, "a", "A", 1, "Venture"⟩

/-- A cached-looking record for a key `x` that is not submitted. -/
def recX : Record :=
  { baseRec with key := "x", name := "X", tier := 1, website := some "https://x.io" }

/-- A cached-looking record for key `a`. -/
def recA : Record :=
  { baseRec with key := "a", name := "A", tier := 1, website := some "https://a.io" }

/-- An oracle whose every fetch succeeds with a website. -/
def okOracle : String → ScrapeOut := fun _ => ⟨wLinks, none⟩

/-- A cached record under key `k`. -/
def cexR1 : Record :=
  { baseRec with key := "k", name := "K1", tier := 1, website := some "https://k1.io" }

/-- A new record for key `k` whose tier is 2. -/
def cexR2 : Record :=
  { baseRec with key := "k", name := "K2", tier := 2, website := some "https://k2.io" }

/-- A file record with an empty-string `error` and a website. -/
def emptyErrRec : Record :=
  { baseRec with key := "e", website := some "https://e.io", error := some "" }

/-- A failed record (error set, no links). -/
def failRec : Record :=
  { baseRec with key := "f", name := "F", error := some "boom" }

/-- The record `main` persists for fund `a` after a fully successful
scrape that found only a Telegram link: `error` is null, `website` and
`twitter` are null, and the link sits nested under `other_socials`. -/
def telRec : Record :=
  mkResult fundA ⟨{ noLinks with telegram := some "https://t.me/a" }, none⟩

/-- A tier-1 replacement record for key `k`. -/
def newK : Record :=
  { baseRec with key := "k", name := "K2", tier := 1, website := some "https://k2.io" }

/-! # Theorems

## Retry policy (claims C3, C4, C6) -/

theorem scrapeFundGo_fail_then_ok (M : Nat) :
    ∀ (N : Nat) (fetch : Nat → FetchOutcome) (msgs : Nat → String)
      (lastErr : Option String) (L : Links),
      (∀ i < N, fetch i = .err (msgs i)) → fetch N = .ok L → hasAnyLinks L = true →
      (scrapeFundGo fetch lastErr M).attempts = min (N + 1) M ∧
      (scrapeFundGo fetch lastErr M).delays = min (N + 1) M - 1 ∧
      ((scrapeFundGo fetch lastErr M).out.error = none ↔ N < M) := by
  induction M with
  | zero =>
    intro N fetch msgs lastErr L _ _ _
    simp [scrapeFundGo, exhaustedOut]
  | succ rem ih =>
    intro N fetch msgs lastErr L hfail hsucc hL
    cases N with
    | zero =>
      simp [scrapeFundGo, hsucc, hL]
    | succ n =>
      have h0 : fetch 0 = .err (msgs 0) := hfail 0 (Nat.succ_pos n)
      by_cases hrem : rem = 0
      · subst hrem
        simp [scrapeFundGo, h0, exhaustedOut]
      · have ihh := ih n (fun i => fetch (i + 1)) (fun i => msgs (i + 1))
          (some (msgs 0)) L (fun i hi => hfail (i + 1) (by omega)) hsucc hL
        simp only [scrapeFundGo, h0, hrem, not_false_iff, if_true, ne_eq]
        refine ⟨?_, ?_, ?_⟩
        · simp only [ihh.1]; omega
        · simp only [ihh.2.1]; omega
        · simp only [ihh.2.2]; omega

/-- **C3**: a fetch that fails deterministically on its first `N` calls and
succeeds with usable links on call `N + 1`, run under the retry wrapper
with attempt budget `M`, returns a success iff `N < M`; the fetch body
runs exactly `min (N+1) M` times, and the fixed inter-attempt delay is
performed after every attempt except the final one. -/
theorem retry_bound (N M : Nat) (fetch : Nat → FetchOutcome) (msgs : Nat → String)
    (L : Links) (hfail : ∀ i < N, fetch i = .err (msgs i))
    (hsucc : fetch N = .ok L) (hL : hasAnyLinks L = true) :
    (scrapeFund fetch M).attempts = min (N + 1) M ∧
    (scrapeFund fetch M).delays = (scrapeFund fetch M).attempts - 1 ∧
    ((scrapeFund fetch M).out.error = none ↔ N < M) := by
  have h := scrapeFundGo_fail_then_ok M N fetch msgs none L hfail hsucc hL
  simp only [scrapeFund] at *
  exact ⟨h.1, by rw [h.2.1, h.1], h.2.2⟩

/-- Witness for `retry_bound` at `N = 1`, `M = 3`. -/
theorem retry_bound_witness :
    (∀ i < 1, wFetch i = .err "boom") ∧ wFetch 1 = .ok wLinks ∧
    hasAnyLinks wLinks = true ∧
    (scrapeFund wFetch 3).attempts = min (1 + 1) 3 ∧
    ((scrapeFund wFetch 3).out.error = none ↔ 1 < 3) := by
  have h := retry_bound 1 3 wFetch (fun _ => "boom") wLinks (by decide) (by decide)
    (by decide)
  exact ⟨by decide, by decide, by decide, h.1, h.2.2⟩

theorem scrapeFundGo_noLinks :
    ∀ (M : Nat), 1 ≤ M →
      ∀ (fetch : Nat → FetchOutcome) (L : Links) (lastErr : Option String),
      (∀ i, fetch i = .ok L) → hasAnyLinks L = false →
      scrapeFundGo fetch lastErr M = ⟨M, M - 1, ⟨L, some "No social links found"⟩⟩ := by
  intro M
  induction M with
  | zero => intro h; omega
  | succ rem ih =>
    intro _ fetch L lastErr hfetch hL
    by_cases hrem : rem = 0
    · subst hrem
      simp [scrapeFundGo, hfetch 0, hL]
    · have hrec := ih (by omega) (fun i => fetch (i + 1)) L
        (some "No social links found - retrying") (fun i => hfetch (i + 1)) hL
      simp [scrapeFundGo, hfetch 0, hL, hrem, hrec, RetryOutcome.mk.injEq]
      omega

/-- **C4**: a target whose every fetch navigates successfully but extracts
zero links is retried while attempts remain, and on the final attempt the
wrapper returns it as a success-with-empty-payload: the extracted (empty)
links together with `error: 'No social links found'`, returned rather
than thrown. -/
theorem retry_empty_payload (M : Nat) (fetch : Nat → FetchOutcome) (L : Links)
    (hM : 1 ≤ M) (hfetch : ∀ i, fetch i = .ok L) (hL : hasAnyLinks L = false) :
    scrapeFund fetch M = ⟨M, M - 1, ⟨L, some "No social links found"⟩⟩ :=
  scrapeFundGo_noLinks M hM fetch L none hfetch hL

/-- Witness for `retry_empty_payload` at `M = 3`. -/
theorem retry_empty_payload_witness :
    1 ≤ 3 ∧ hasAnyLinks noLinks = false ∧
    scrapeFund (fun _ => .ok noLinks) 3 =
      ⟨3, 2, ⟨noLinks, some "No social links found"⟩⟩ :=
  ⟨by decide, by decide,
    retry_empty_payload 3 (fun _ => .ok noLinks) noLinks (by decide) (fun _ => rfl)
      (by decide)⟩

theorem scrapeFundGo_allFail :
    ∀ (M : Nat), 1 ≤ M →
      ∀ (fetch : Nat → FetchOutcome) (msgs : Nat → String) (lastErr : Option String),
      (∀ i < M, fetch i = .err (msgs i)) →
      scrapeFundGo fetch lastErr M = ⟨M, M - 1, exhaustedOut (some (msgs (M - 1)))⟩ := by
  intro M
  induction M with
  | zero => intro h; omega
  | succ rem ih =>
    intro _ fetch msgs lastErr hfail
    by_cases hrem : rem = 0
    · subst hrem
      simp [scrapeFundGo, hfail 0 (by omega)]
    · have hrec := ih (by omega) (fun i => fetch (i + 1)) (fun i => msgs (i + 1))
        (some (msgs 0)) (fun i hi => hfail (i + 1) (by omega))
      have hr : rem - 1 + 1 = rem := by omega
      simp [scrapeFundGo, hfail 0 (by omega), hrem, hrec, hr, RetryOutcome.mk.injEq]

/-- **C6** (amended): when every attempt raises a failure, the wrapper
returns (rather than throws) a failure object with every link slot `null`
and `error` equal to the last failure's message — or `'Unknown error'`
when that message is empty — and the Record `main` builds from it has its
identity fields populated and all domain fields `null`. -/
theorem retry_exhausted_record (M : Nat) (fetch : Nat → FetchOutcome)
    (msgs : Nat → String) (fund : Fund) (hM : 1 ≤ M)
    (hfail : ∀ i < M, fetch i = .err (msgs i)) :
    (scrapeFund fetch M).out.links = noLinks ∧
    (scrapeFund fetch M).out.error =
      some (if msgs (M - 1) = "" then "Unknown error" else msgs (M - 1)) ∧
    mkResult fund (scrapeFund fetch M).out =
      { baseRec with
        id := some fund.id, key := fund.key, name := fund.name
        tier := fund.tier, type := fund.type
        url := some ("https://cryptorank.io/funds/" ++ fund.key)
        error := some (if msgs (M - 1) = "" then "Unknown error" else msgs (M - 1)) } := by
  have h := scrapeFundGo_allFail M hM fetch msgs none hfail
  have hout : (scrapeFund fetch M).out = exhaustedOut (some (msgs (M - 1))) := by
    simp only [scrapeFund, h]
  rw [hout]
  refine ⟨rfl, by simp [exhaustedOut, errMsgOr], ?_⟩
  by_cases hm : msgs (M - 1) = "" <;>
    simp [exhaustedOut, errMsgOr, mkResult, orNull, truthy, otherSocialsOf, noLinks,
      baseRec, hm]

/-- Witness for `retry_exhausted_record` at `M = 3` with message
`'timeout'`. -/
theorem retry_exhausted_record_witness :
    1 ≤ 3 ∧ (∀ i < 3, (fun _ : Nat => FetchOutcome.err "timeout") i = .err "timeout") ∧
    (scrapeFund (fun _ => .err "timeout") 3).out.error = some "timeout" := by
  have h := retry_exhausted_record 3 (fun _ => .err "timeout") (fun _ => "timeout")
    fundA (by decide) (fun i _ => rfl)
  refine ⟨by decide, fun i _ => rfl, ?_⟩
  rw [h.2.1]
  simp

/-- **C6** counterexample: if every attempt fails with the empty message,
the returned `error` is `'Unknown error'`, not the last failure's message
`''` — the claim as stated fails on the code. -/
theorem retry_exhausted_cex :
    (scrapeFund (fun _ => .err "") 3).out.error = some "Unknown error" ∧
    (scrapeFund (fun _ => .err "") 3).out.error ≠ some "" := by
  decide

/-! ## Association-list lemmas for the JS `Map` -/

theorem any_key_eq_true {m : List (String × Record)} {k : String} :
    (m.any (fun kv => kv.1 = k)) = true ↔ k ∈ m.map Prod.fst := by
  simp only [List.any_eq_true, List.mem_map, decide_eq_true_eq]

theorem lookup_eq_none_iff {m : List (String × Record)} {k : String} :
    List.lookup k m = none ↔ k ∉ m.map Prod.fst := by
  induction m with
  | nil => simp
  | cons a t ih =>
    obtain ⟨a1, a2⟩ := a
    by_cases hk : k = a1
    · subst hk
      simp [List.lookup_cons]
    · simp [List.lookup_cons, beq_false_of_ne hk, ih, hk, Ne.symm hk]

theorem lookup_map_replace_ne (m : List (String × Record)) (k k' : String)
    (v : Record) (hk' : k' ≠ k) :
    List.lookup k' (m.map (fun kv => if kv.1 = k then (k, v) else kv)) =
      List.lookup k' m := by
  induction m with
  | nil => rfl
  | cons a t ih =>
    obtain ⟨a1, a2⟩ := a
    by_cases ha : a1 = k
    · subst ha
      simp [List.lookup_cons, beq_false_of_ne hk', ih]
    · by_cases hk2 : k' = a1
      · subst hk2
        simp [List.lookup_cons, ha]
      · simp [List.lookup_cons, beq_false_of_ne hk2, ha, ih]

theorem lookup_map_replace_eq (m : List (String × Record)) (k : String) (v : Record)
    (hmem : k ∈ m.map Prod.fst) :
    List.lookup k (m.map (fun kv => if kv.1 = k then (k, v) else kv)) = some v := by
  induction m with
  | nil => simp at hmem
  | cons a t ih =>
    obtain ⟨a1, a2⟩ := a
    by_cases ha : a1 = k
    · subst ha
      simp [List.lookup_cons]
    · have hka : ¬k = a1 := fun h => ha h.symm
      have hmem' : k ∈ t.map Prod.fst := by
        simp only [List.map_cons, List.mem_cons] at hmem
        rcases hmem with h | h
        · exact absurd h hka
        · exact h
      simp [List.lookup_cons, ha, beq_false_of_ne hka, ih hmem']

theorem lookup_mapSet (m : List (String × Record)) (k k' : String) (v : Record) :
    List.lookup k' (mapSet m k v) = if k' = k then some v else List.lookup k' m := by
  rw [mapSet]
  by_cases hmem : (m.any (fun kv => kv.1 = k)) = true
  · rw [if_pos hmem]
    by_cases hk' : k' = k
    · subst hk'
      rw [if_pos rfl]
      exact lookup_map_replace_eq m k' v (any_key_eq_true.mp hmem)
    · rw [if_neg hk']
      exact lookup_map_replace_ne m k k' v hk'
  · rw [if_neg hmem]
    rw [List.lookup_append]
    by_cases hk' : k' = k
    · subst hk'
      have hnone : List.lookup k' m = none := by
        rw [lookup_eq_none_iff]
        intro hmm
        exact hmem (any_key_eq_true.mpr hmm)
      simp [hnone, List.lookup_cons]
    · by_cases hres : List.lookup k' m = none
      · simp [hres, List.lookup_cons, beq_false_of_ne hk', hk']
      · rcases Option.ne_none_iff_exists'.mp hres with ⟨v', hv'⟩
        simp [hv', hk']

theorem keys_mapSet (m : List (String × Record)) (k : String) (v : Record) :
    (mapSet m k v).map Prod.fst =
      if k ∈ m.map Prod.fst then m.map Prod.fst else m.map Prod.fst ++ [k] := by
  rw [mapSet]
  by_cases hmem : (m.any (fun kv => kv.1 = k)) = true
  · rw [if_pos hmem, if_pos (any_key_eq_true.mp hmem), List.map_map]
    apply List.map_congr_left
    intro kv _
    by_cases hkv : kv.1 = k
    · simp [hkv]
    · simp [hkv]
  · rw [if_neg hmem, if_neg (fun hm => hmem (any_key_eq_true.mpr hm))]
    simp

theorem mem_keys_mapSet {m : List (String × Record)} {k k' : String} {v : Record} :
    k' ∈ (mapSet m k v).map Prod.fst ↔ k' ∈ m.map Prod.fst ∨ k' = k := by
  rw [keys_mapSet]
  by_cases hmem : k ∈ m.map Prod.fst
  · rw [if_pos hmem]
    constructor
    · exact Or.inl
    · rintro (h | h)
      · exact h
      · rwa [h]
  · rw [if_neg hmem]
    simp

theorem nodup_keys_mapSet {m : List (String × Record)} {k : String} {v : Record}
    (h : (m.map Prod.fst).Nodup) : ((mapSet m k v).map Prod.fst).Nodup := by
  rw [keys_mapSet]
  by_cases hmem : k ∈ m.map Prod.fst
  · rwa [if_pos hmem]
  · rw [if_neg hmem]
    rw [List.nodup_append]
    exact ⟨h, List.nodup_singleton k,
      fun a ha hb => hmem ((List.mem_singleton.mp hb) ▸ ha)⟩

theorem wf_mapSet {m : List (String × Record)} {k : String} {v : Record}
    (hwf : ∀ kv ∈ m, (kv.2).key = kv.1) (hv : v.key = k) :
    ∀ kv ∈ mapSet m k v, (kv.2).key = kv.1 := by
  intro kv hkv
  rw [mapSet] at hkv
  by_cases hmem : (m.any (fun kv => kv.1 = k)) = true
  · rw [if_pos hmem] at hkv
    rcases List.mem_map.mp hkv with ⟨kv0, hkv0, heq⟩
    by_cases h0 : kv0.1 = k
    · rw [if_pos h0] at heq
      rw [← heq]
      exact hv
    · rw [if_neg h0] at heq
      rw [← heq]
      exact hwf kv0 hkv0
  · rw [if_neg hmem] at hkv
    rcases List.mem_append.mp hkv with h | h
    · exact hwf kv h
    · rcases List.mem_singleton.mp h with rfl
      exact hv

theorem lookup_eq_some_mem {m : List (String × Record)} {k : String} {r : Record} :
    List.lookup k m = some r → (k, r) ∈ m := by
  induction m with
  | nil => simp
  | cons a t ih =>
    obtain ⟨a1, a2⟩ := a
    by_cases hk : k = a1
    · subst hk
      simp only [List.lookup_cons, beq_self_eq_true]
      intro h
      cases h
      exact List.mem_cons_self _ _
    · simp only [List.lookup_cons, beq_false_of_ne hk]
      intro h
      exact List.mem_cons_of_mem _ (ih h)

theorem values_filter_of_lookup_some {m : List (String × Record)} {k : String}
    {r : Record} (hwf : ∀ kv ∈ m, (kv.2).key = kv.1) (hnd : (m.map Prod.fst).Nodup)
    (h : List.lookup k m = some r) :
    (m.map Prod.snd).filter (fun x => x.key = k) = [r] := by
  induction m with
  | nil => simp at h
  | cons a t ih =>
    obtain ⟨a1, a2⟩ := a
    have ha2 : a2.key = a1 := hwf (a1, a2) (List.mem_cons_self _ _)
    simp only [List.map_cons, List.nodup_cons] at hnd
    by_cases hk : k = a1
    · subst hk
      rw [List.lookup_cons] at h
      simp only [beq_self_eq_true] at h
      injection h with hr
      subst hr
      simp only [List.map_cons, List.filter_cons]
      rw [if_pos (by simp [ha2])]
      have hnil : (t.map Prod.snd).filter (fun x => decide (x.key = k)) = [] := by
        rw [List.filter_eq_nil_iff]
        intro x hx
        rcases List.mem_map.mp hx with ⟨kv, hkv, rfl⟩
        simp only [decide_eq_true_eq, hwf kv (List.mem_cons_of_mem _ hkv)]
        exact fun hcon => hnd.1 (hcon ▸ List.mem_map.mpr ⟨kv, hkv, rfl⟩)
      rw [hnil]
    · rw [List.lookup_cons] at h
      simp only [beq_false_of_ne hk] at h
      simp only [List.map_cons, List.filter_cons]
      rw [if_neg (by simp only [decide_eq_true_eq, ha2]; exact fun hc => hk hc.symm)]
      exact ih (fun kv hkv => hwf kv (List.mem_cons_of_mem _ hkv)) hnd.2 h

theorem values_filter_of_lookup_none {m : List (String × Record)} {k : String}
    (hwf : ∀ kv ∈ m, (kv.2).key = kv.1) (h : List.lookup k m = none) :
    (m.map Prod.snd).filter (fun x => x.key = k) = [] := by
  rw [List.filter_eq_nil_iff]
  intro x hx
  rcases List.mem_map.mp hx with ⟨kv, hkv, rfl⟩
  rw [lookup_eq_none_iff] at h
  have := hwf kv hkv
  simp only [decide_eq_true_eq, this]
  intro hcon
  exact h (hcon ▸ List.mem_map.mpr ⟨kv, hkv, rfl⟩)

/-! ## Fold lemmas for the cache and the merge maps -/

theorem ensureUrl_key (k : String) (r : Record) : (ensureUrl k r).key = r.key := by
  rw [ensureUrl]; split <;> rfl

theorem ensureUrl_tier (k : String) (r : Record) : (ensureUrl k r).tier = r.tier := by
  rw [ensureUrl]; split <;> rfl

theorem lookup_newFold_not_mem (rs : List Record) :
    ∀ (m0 : List (String × Record)) (k : String), k ∉ rs.map Record.key →
      List.lookup k (rs.foldl (fun m r => mapSet m r.key r) m0) = List.lookup k m0 := by
  induction rs with
  | nil => intro m0 k _; rfl
  | cons r t ih =>
    intro m0 k hk
    simp only [List.map_cons, List.mem_cons, not_or] at hk
    rw [List.foldl_cons, ih _ k hk.2, lookup_mapSet, if_neg hk.1]

theorem lookup_newFold_mem (rs : List Record) :
    ∀ (m0 : List (String × Record)) (k : String), k ∈ rs.map Record.key →
      ∃ r ∈ rs, r.key = k ∧
        List.lookup k (rs.foldl (fun m r => mapSet m r.key r) m0) = some r := by
  induction rs with
  | nil => intro m0 k h; simp at h
  | cons r t ih =>
    intro m0 k hk
    by_cases hmem : k ∈ t.map Record.key
    · rcases ih (mapSet m0 r.key r) k hmem with ⟨r', hr', hkey, hlook⟩
      exact ⟨r', List.mem_cons_of_mem _ hr', hkey, by rw [List.foldl_cons]; exact hlook⟩
    · have hkr : k = r.key := by
        simp only [List.map_cons, List.mem_cons] at hk
        rcases hk with h | h
        · exact h
        · exact absurd h hmem
      refine ⟨r, List.mem_cons_self _ _, hkr.symm, ?_⟩
      rw [List.foldl_cons, lookup_newFold_not_mem t _ k hmem, lookup_mapSet, if_pos hkr]

theorem lookup_cacheFold (cache : List (String × Record)) :
    ∀ (m0 : List (String × Record)) (k : String), (cache.map Prod.fst).Nodup →
      List.lookup k (cache.foldl (fun m kv => mapSet m kv.1 (ensureUrl kv.1 kv.2)) m0) =
        (match List.lookup k cache with
         | some v => some (ensureUrl k v)
         | none => List.lookup k m0) := by
  induction cache with
  | nil => intro m0 k _; rfl
  | cons a t ih =>
    intro m0 k hnd
    obtain ⟨a1, a2⟩ := a
    simp only [List.map_cons, List.nodup_cons] at hnd
    rw [List.foldl_cons, ih _ k hnd.2]
    by_cases hk : k = a1
    · subst hk
      have h1 : List.lookup k t = none := lookup_eq_none_iff.mpr hnd.1
      simp [h1, lookup_mapSet, List.lookup_cons]
    · simp only [List.lookup_cons, beq_false_of_ne hk]
      cases hl : List.lookup k t with
      | none => simp only [hl, lookup_mapSet, if_neg hk]
      | some v => simp only [hl]

theorem nodup_keys_foldNew (rs : List Record) :
    ∀ m0 : List (String × Record), (m0.map Prod.fst).Nodup →
      ((rs.foldl (fun m r => mapSet m r.key r) m0).map Prod.fst).Nodup := by
  induction rs with
  | nil => intro m0 h; exact h
  | cons r t ih => intro m0 h; exact ih _ (nodup_keys_mapSet h)

theorem wf_foldNew (rs : List Record) :
    ∀ m0 : List (String × Record), (∀ kv ∈ m0, (kv.2).key = kv.1) →
      ∀ kv ∈ rs.foldl (fun m r => mapSet m r.key r) m0, (kv.2).key = kv.1 := by
  induction rs with
  | nil => intro m0 h; exact h
  | cons r t ih => intro m0 h; exact ih _ (wf_mapSet h rfl)

theorem nodup_keys_foldCache (cache : List (String × Record)) :
    ∀ m0 : List (String × Record), (m0.map Prod.fst).Nodup →
      ((cache.foldl (fun m kv => mapSet m kv.1 (ensureUrl kv.1 kv.2)) m0).map
        Prod.fst).Nodup := by
  induction cache with
  | nil => intro m0 h; exact h
  | cons a t ih => intro m0 h; exact ih _ (nodup_keys_mapSet h)

theorem wf_foldCache (cache : List (String × Record)) :
    ∀ m0 : List (String × Record), (∀ kv ∈ cache, (kv.2).key = kv.1) →
      (∀ kv ∈ m0, (kv.2).key = kv.1) →
      ∀ kv ∈ cache.foldl (fun m kv => mapSet m kv.1 (ensureUrl kv.1 kv.2)) m0,
        (kv.2).key = kv.1 := by
  induction cache with
  | nil => intro m0 _ h; exact h
  | cons a t ih =>
    intro m0 hc h
    refine ih _ (fun kv hkv => hc kv (List.mem_cons_of_mem _ hkv)) ?_
    refine wf_mapSet h ?_
    rw [ensureUrl_key]
    exact hc a (List.mem_cons_self _ _)

/-! ## `loadCache` (claims C7, C2) -/

theorem loadCacheFold_eq (data : List Record) :
    ∀ acc : List (String × Record),
      (∀ r ∈ data, cacheEligible r = true → r.key ∉ acc.map Prod.fst) →
      (data.map Record.key).Nodup →
      data.foldl (fun cache f => if cacheEligible f then mapSet cache f.key f else cache)
          acc =
        acc ++ (data.filter cacheEligible).map (fun r => (r.key, r)) := by
  induction data with
  | nil => intro acc _ _; simp
  | cons f t ih =>
    intro acc hfresh hnd
    simp only [List.map_cons, List.nodup_cons] at hnd
    rw [List.foldl_cons]
    by_cases he : cacheEligible f = true
    · rw [if_pos he]
      have hfk : f.key ∉ acc.map Prod.fst := hfresh f (List.mem_cons_self _ _) he
      have hset : mapSet acc f.key f = acc ++ [(f.key, f)] := by
        rw [mapSet, if_neg (fun hc => hfk (any_key_eq_true.mp hc))]
      have harg : ∀ r ∈ t, cacheEligible r = true →
          r.key ∉ (acc ++ [(f.key, f)]).map Prod.fst := by
        intro r hr hre
        simp only [List.map_append, List.mem_append, List.map_cons, List.map_nil,
          List.mem_singleton, not_or]
        refine ⟨hfresh r (List.mem_cons_of_mem _ hr) hre, ?_⟩
        intro hc
        exact hnd.1 (hc ▸ List.mem_map.mpr ⟨r, hr, rfl⟩)
      rw [hset, ih (acc ++ [(f.key, f)]) harg hnd.2, List.filter_cons, if_pos he,
        List.map_cons, List.append_assoc]
      rfl
    · rw [if_neg he, ih acc (fun r hr hre => hfresh r (List.mem_cons_of_mem _ hr) hre)
        hnd.2, List.filter_cons, if_neg he]

theorem loadCacheFold_wf (data : List Record) :
    ∀ acc : List (String × Record), (∀ kv ∈ acc, (kv.2).key = kv.1) →
      ∀ kv ∈ data.foldl
          (fun cache f => if cacheEligible f then mapSet cache f.key f else cache) acc,
        (kv.2).key = kv.1 := by
  induction data with
  | nil => intro acc h; exact h
  | cons f t ih =>
    intro acc h
    rw [List.foldl_cons]
    by_cases he : cacheEligible f = true
    · rw [if_pos he]; exact ih _ (wf_mapSet h rfl)
    · rw [if_neg he]; exact ih _ h

theorem loadCacheFold_nodup (data : List Record) :
    ∀ acc : List (String × Record), (acc.map Prod.fst).Nodup →
      ((data.foldl
          (fun cache f => if cacheEligible f then mapSet cache f.key f else cache)
          acc).map Prod.fst).Nodup := by
  induction data with
  | nil => intro acc h; exact h
  | cons f t ih =>
    intro acc h
    rw [List.foldl_cons]
    by_cases he : cacheEligible f = true
    · rw [if_pos he]; exact ih _ (nodup_keys_mapSet h)
    · rw [if_neg he]; exact ih _ h

theorem loadCache_wf (prior : FileState) :
    ∀ kv ∈ loadCache prior, (kv.2).key = kv.1 := by
  cases prior with
  | absent => intro kv h; simp [loadCache] at h
  | unparseable => intro kv h; simp [loadCache] at h
  | valid rs => exact loadCacheFold_wf rs.data [] (by simp)

theorem loadCache_nodup (prior : FileState) :
    ((loadCache prior).map Prod.fst).Nodup := by
  cases prior with
  | absent => simp [loadCache]
  | unparseable => simp [loadCache]
  | valid rs => exact loadCacheFold_nodup rs.data [] (by simp)

theorem loadCacheFold_mem_keys (data : List Record) :
    ∀ (acc : List (String × Record)) (k : String),
      k ∈ ((data.foldl
          (fun cache f => if cacheEligible f then mapSet cache f.key f else cache)
          acc).map Prod.fst) ↔
        k ∈ acc.map Prod.fst ∨ ∃ r ∈ data, cacheEligible r = true ∧ r.key = k := by
  induction data with
  | nil => simp
  | cons f t ih =>
    intro acc k
    rw [List.foldl_cons]
    by_cases he : cacheEligible f = true
    · rw [if_pos he, ih]
      simp only [mem_keys_mapSet, List.mem_cons]
      constructor
      · rintro ((h | h) | ⟨r, hr, hre, hrk⟩)
        · exact Or.inl h
        · exact Or.inr ⟨f, Or.inl rfl, he, h.symm⟩
        · exact Or.inr ⟨r, Or.inr hr, hre, hrk⟩
      · rintro (h | ⟨r, hr | hr, hre, hrk⟩)
        · exact Or.inl (Or.inl h)
        · subst hr; exact Or.inl (Or.inr hrk.symm)
        · exact Or.inr ⟨r, hr, hre, hrk⟩
    · rw [if_neg he, ih]
      constructor
      · rintro (h | ⟨r, hr, hre, hrk⟩)
        · exact Or.inl h
        · exact Or.inr ⟨r, List.mem_cons_of_mem _ hr, hre, hrk⟩
      · rintro (h | ⟨r, hr, hre, hrk⟩)
        · exact Or.inl h
        · rcases List.mem_cons.mp hr with rfl | hr'
          · exact absurd hre he
          · exact Or.inr ⟨r, hr', hre, hrk⟩

theorem loadCache_mem_keys (rs : ResultSet) (k : String) :
    k ∈ ((loadCache (.valid rs)).map Prod.fst) ↔
      ∃ r ∈ rs.data, cacheEligible r = true ∧ r.key = k := by
  have h := loadCacheFold_mem_keys rs.data [] k
  simpa using h

/-- **C7** (amended): `loadCache` never throws: it returns the empty map
when the file is missing or unparseable, and for a valid ResultSet (at
most one Record per key) it returns exactly the entries whose `error` is
falsy — `null` **or the empty string** — and which have at least one
populated social-link field, keyed by `key` in file order. -/
theorem loadCache_spec :
    loadCache .absent = [] ∧ loadCache .unparseable = [] ∧
    ∀ rs : ResultSet, (rs.data.map Record.key).Nodup →
      loadCache (.valid rs) =
        (rs.data.filter (fun r => !truthy r.error && hasAnyLink r)).map
          (fun r => (r.key, r)) := by
  refine ⟨rfl, rfl, ?_⟩
  intro rs hnd
  have h := loadCacheFold_eq rs.data [] (by intro r _ _; simp) hnd
  have h0 : loadCache (.valid rs) =
      rs.data.foldl
        (fun cache f => if cacheEligible f then mapSet cache f.key f else cache) [] := rfl
  rw [h0, h]
  have hpred : (fun r : Record => !truthy r.error && hasAnyLink r) = cacheEligible := by
    funext r; rfl
  rw [hpred]
  rfl

/-- Witness for `loadCache_spec`: a file with one cacheable and one failed
record yields exactly the cacheable entry. -/
theorem loadCache_spec_witness :
    (([recA, failRec].map Record.key).Nodup) ∧
    loadCache (.valid ⟨[recA, failRec], false, 2, 1, 1⟩) = [("a", recA)] := by
  have h := loadCache_spec.2.2 ⟨[recA, failRec], false, 2, 1, 1⟩ (by decide)
  exact ⟨by decide, by rw [h]; decide⟩

/-- **C7** counterexample: a record whose `error` is the empty string is
cached (the code tests JS truthiness `!fund.error`), although the claim
as stated allows only entries whose error is null. -/
theorem loadCache_cex :
    loadCache (.valid ⟨[emptyErrRec], false, 1, 1, 0⟩) = [("e", emptyErrRec)] ∧
    emptyErrRec.error ≠ none := by
  exact ⟨by decide, by decide⟩

/-! ## The merge (claims C5, C1) -/

theorem build_wf (cache : List (String × Record)) (new : List Record)
    (hwf : ∀ kv ∈ cache, (kv.2).key = kv.1) :
    ∀ kv ∈ buildAllResultsMap cache new, (kv.2).key = kv.1 :=
  wf_foldNew new _ (wf_foldCache cache [] hwf (by simp))

theorem build_nodup (cache : List (String × Record)) (new : List Record) :
    ((buildAllResultsMap cache new).map Prod.fst).Nodup :=
  nodup_keys_foldNew new _ (nodup_keys_foldCache cache [] (by simp))

theorem lookup_build_last (cache : List (String × Record)) (l1 l2 : List Record)
    (R2 : Record) (K : String) (hK2 : R2.key = K) (hl2 : ∀ r ∈ l2, r.key ≠ K) :
    List.lookup K (buildAllResultsMap cache (l1 ++ R2 :: l2)) = some R2 := by
  have hnot : K ∉ l2.map Record.key := by
    intro hmem
    rcases List.mem_map.mp hmem with ⟨r, hr, hrk⟩
    exact hl2 r hr hrk
  show List.lookup K ((l1 ++ R2 :: l2).foldl (fun m r => mapSet m r.key r) _) = some R2
  rw [List.foldl_append, List.foldl_cons, lookup_newFold_not_mem l2 _ K hnot,
    lookup_mapSet, if_pos hK2.symm]

theorem lookup_build_not_new (cache : List (String × Record)) (new : List Record)
    (k : String) (hnd : (cache.map Prod.fst).Nodup) (hnot : k ∉ new.map Record.key) :
    List.lookup k (buildAllResultsMap cache new) =
      (List.lookup k cache).map (fun v => ensureUrl k v) := by
  show List.lookup k (new.foldl (fun m r => mapSet m r.key r) _) = _
  rw [lookup_newFold_not_mem new _ k hnot, lookup_cacheFold cache [] k hnd]
  cases List.lookup k cache <;> rfl

theorem mem_values_key_iff_lookup {m : List (String × Record)}
    (hwf : ∀ kv ∈ m, (kv.2).key = kv.1) (hnd : (m.map Prod.fst).Nodup)
    {k : String} {r : Record} :
    (r ∈ m.map Prod.snd ∧ r.key = k) ↔ List.lookup k m = some r := by
  constructor
  · rintro ⟨hr, hrk⟩
    cases hl : List.lookup k m with
    | none =>
      have hnil := values_filter_of_lookup_none hwf hl
      have hrf : r ∈ (m.map Prod.snd).filter (fun x => x.key = k) :=
        List.mem_filter.mpr ⟨hr, by simp [hrk]⟩
      rw [hnil] at hrf
      simp at hrf
    | some v =>
      have hone := values_filter_of_lookup_some hwf hnd hl
      have hrf : r ∈ (m.map Prod.snd).filter (fun x => x.key = k) :=
        List.mem_filter.mpr ⟨hr, by simp [hrk]⟩
      rw [hone, List.mem_singleton] at hrf
      rw [hrf]
  · intro hl
    have hm := lookup_eq_some_mem hl
    exact ⟨List.mem_map.mpr ⟨(k, r), hm, rfl⟩, hwf (k, r) hm⟩

theorem contains_iff_mem_nat (l : List Nat) (a : Nat) :
    l.contains a = true ↔ a ∈ l :=
  List.elem_iff

theorem filter_key_comm (l : List Record) (K : String) (t2 : Bool) :
    (l.filter (fun f => (targetTiers t2).contains f.tier)).filter
        (fun r => r.key = K) =
      (l.filter (fun r => r.key = K)).filter
        (fun f => (targetTiers t2).contains f.tier) := by
  rw [List.filter_filter, List.filter_filter]
  exact List.filter_congr (fun x _ => Bool.and_comm _ _)

/-- **C5** (amended): if the new batch's *last* record carrying key `K` is
`R2` and `R2.tier` is among the run's target tiers, then the merged
ResultSet contains exactly one Record for `K`, namely `R2` — the new
record always overwrites the cached `R1`. (As stated the claim fails: the
tier filter can drop `R2`, and with duplicate keys in the batch a later
record wins; see the counterexample.) -/
theorem merge_new_wins (cache : List (String × Record)) (l1 l2 : List Record)
    (R1 R2 : Record) (K : String) (t2 : Bool)
    (hwf : ∀ kv ∈ cache, (kv.2).key = kv.1) (hnd : (cache.map Prod.fst).Nodup)
    (hK1 : (K, R1) ∈ cache) (hK2 : R2.key = K) (hl2 : ∀ r ∈ l2, r.key ≠ K)
    (htier : R2.tier ∈ targetTiers t2) :
    (mergeResults cache (l1 ++ R2 :: l2) t2).filter (fun r => r.key = K) = [R2] := by
  have hlook := lookup_build_last cache l1 l2 R2 K hK2 hl2
  have hmwf := build_wf cache (l1 ++ R2 :: l2) hwf
  have hmnd := build_nodup cache (l1 ++ R2 :: l2)
  have hfil : ((buildAllResultsMap cache (l1 ++ R2 :: l2)).map Prod.snd).filter
      (fun x => x.key = K) = [R2] := values_filter_of_lookup_some hmwf hmnd hlook
  have hperm : ((mergeResults cache (l1 ++ R2 :: l2) t2).filter
      (fun r => r.key = K)).Perm
      ((((buildAllResultsMap cache (l1 ++ R2 :: l2)).map Prod.snd).filter
        (fun f => (targetTiers t2).contains f.tier)).filter (fun r => r.key = K)) :=
    List.Perm.filter _ (List.perm_insertionSort _ _)
  have hcomm : (((buildAllResultsMap cache (l1 ++ R2 :: l2)).map Prod.snd).filter
      (fun f => (targetTiers t2).contains f.tier)).filter (fun r => r.key = K) =
      [R2] := by
    rw [filter_key_comm, hfil, List.filter_cons,
      if_pos (by simpa using (contains_iff_mem_nat _ _).mpr htier)]
    rfl
  rw [hcomm] at hperm
  exact List.perm_singleton.mp hperm

/-- Witness for `merge_new_wins`: replacing the cached record for key `k`
with a tier-1 record keeps exactly the new record. -/
theorem merge_new_wins_witness :
    (∀ kv ∈ [("k", cexR1)], (kv.2).key = kv.1) ∧ newK.key = "k" ∧
    newK.tier ∈ targetTiers false ∧
    (mergeResults [("k", cexR1)] ([] ++ newK :: []) false).filter
      (fun r => r.key = "k") = [newK] := by
  have h := merge_new_wins [("k", cexR1)] [] [] cexR1 newK "k" false (by decide)
    (by decide) (List.mem_singleton.mpr rfl) (by decide) (by simp) (by decide)
  exact ⟨by decide, by decide, by decide, h⟩

/-- **C5** counterexample: the cache holds `R1` under key `k`, the batch
holds `R2` with key `k` but tier 2; in a tier-1 run the merged ResultSet
contains *no* record for `k` (the tier filter drops the overwriting
record), contradicting "contains exactly one Record for K, namely R2". -/
theorem merge_new_wins_cex :
    ("k", cexR1) ∈ [("k", cexR1)] ∧ cexR2 ∈ [cexR2] ∧ cexR2.key = "k" ∧
    mergeResults [("k", cexR1)] [cexR2] false = [] := by
  exact ⟨by decide, by decide, rfl, by decide⟩

/-! ## Orchestrator (claims C2, C1, C8) -/

/-- **C2** (amended): a second run against an unchanged fund list and a
prior ResultSet whose record for every fund passes `loadCache`'s check —
falsy `error` *and* a truthy top-level social-link field — skips every
target via the cache: it performs no browser fetch (empty event trace, so
no connect, no delay, no partial save) and returns before writing,
leaving the durable file byte-identical — in particular the persisted
`data` equals the prior run's `data` and the metadata differs at most in
`generatedAt`/`durationMs` (here: in nothing at all). (As stated over any
*fully successful* prior ResultSet the claim fails: a successful record
whose only links are nested under `other_socials` is not cached and is
fetched again; see the counterexample.) -/
theorem second_run_cached (funds : List Fund) (oracle : String → ScrapeOut)
    (t2 : Bool) (rs : ResultSet)
    (hcov : ∀ f ∈ funds, ∃ r ∈ rs.data, r.key = f.key ∧ cacheEligible r = true) :
    runMain funds oracle t2 (.valid rs) = ⟨[], .valid rs⟩ := by
  have hempty :
      funds.filter (fun f => (List.lookup f.key (loadCache (.valid rs))).isNone) = [] := by
    rw [List.filter_eq_nil_iff]
    intro f hf
    rcases hcov f hf with ⟨r, hr, hrk, hre⟩
    have hmem : f.key ∈ (loadCache (.valid rs)).map Prod.fst :=
      (loadCache_mem_keys rs f.key).mpr ⟨r, hr, hre, hrk⟩
    cases hl : List.lookup f.key (loadCache (.valid rs)) with
    | none => exact absurd (lookup_eq_none_iff.mp hl) (not_not_intro hmem)
    | some v => simp [hl]
  simp only [runMain]
  rw [hempty]
  simp

/-- Witness for `second_run_cached`: one fund, already cached. -/
theorem second_run_cached_witness :
    (∀ f ∈ [fundA], ∃ r ∈ [recA], r.key = f.key ∧ cacheEligible r = true) ∧
    runMain [fundA] okOracle false (.valid ⟨[recA], false, 1, 1, 0⟩) =
      ⟨[], .valid ⟨[recA], false, 1, 1, 0⟩⟩ := by
  exact ⟨by decide,
    second_run_cached [fundA] okOracle false ⟨[recA], false, 1, 1, 0⟩ (by decide)⟩

/-- **C2** counterexample: the prior ResultSet holds exactly what `main`
persists after a fully successful run over fund `a` whose page had only a
Telegram link (`error: null`, zero failed scrapes, the link nested under
`other_socials`). `loadCache` checks only the flat link fields, so the
record is not cached and the second run fetches the fund again — the
claimed zero-fetch idempotence fails on the code. -/
theorem second_run_cached_cex :
    telRec = mkResult fundA ⟨{ noLinks with telegram := some "https://t.me/a" }, none⟩ ∧
    telRec.error = none ∧ telRec.key = fundA.key ∧
    (runMain [fundA] okOracle false (.valid ⟨[telRec], false, 1, 1, 0⟩)).events =
      [Event.fetch "a", Event.persist] := by
  exact ⟨rfl, by decide, by decide, by decide⟩

theorem nodup_keys_mergeResults (cache : List (String × Record)) (new : List Record)
    (t2 : Bool) (hwf : ∀ kv ∈ cache, (kv.2).key = kv.1) :
    ((mergeResults cache new t2).map Record.key).Nodup := by
  have h1 : ((buildAllResultsMap cache new).map Prod.snd).map Record.key =
      (buildAllResultsMap cache new).map Prod.fst := by
    rw [List.map_map]
    exact List.map_congr_left (fun kv hkv => build_wf cache new hwf kv hkv)
  have h2 : (((buildAllResultsMap cache new).map Prod.snd).map Record.key).Nodup := by
    rw [h1]; exact build_nodup cache new
  have h3 : ((((buildAllResultsMap cache new).map Prod.snd).filter
      (fun f => (targetTiers t2).contains f.tier)).map Record.key).Nodup :=
    ((List.filter_sublist _).map Record.key).nodup h2
  exact ((List.perm_insertionSort _ _).map Record.key).nodup_iff.mpr h3

theorem mem_keys_mergeResults (cache : List (String × Record)) (new : List Record)
    (t2 : Bool) (k : String) (hwf : ∀ kv ∈ cache, (kv.2).key = kv.1) :
    k ∈ (mergeResults cache new t2).map Record.key ↔
      ∃ r, List.lookup k (buildAllResultsMap cache new) = some r ∧
        r.tier ∈ targetTiers t2 := by
  have hperm := (List.perm_insertionSort
    (fun a b : Record => recordLE a b = true)
    (((buildAllResultsMap cache new).map Prod.snd).filter
      (fun f => (targetTiers t2).contains f.tier))).map Record.key
  rw [show (mergeResults cache new t2).map Record.key =
    ((((buildAllResultsMap cache new).map Prod.snd).filter
      (fun f => (targetTiers t2).contains f.tier)).insertionSort
      (fun a b => recordLE a b = true)).map Record.key from rfl]
  rw [hperm.mem_iff]
  constructor
  · intro hmem
    rcases List.mem_map.mp hmem with ⟨r, hrf, hrk⟩
    rcases List.mem_filter.mp hrf with ⟨hrv, hrt⟩
    refine ⟨r, ?_, (contains_iff_mem_nat _ _).mp hrt⟩
    exact (mem_values_key_iff_lookup (build_wf cache new hwf)
      (build_nodup cache new)).mp ⟨hrv, hrk⟩
  · rintro ⟨r, hlook, htier⟩
    have hrv := (mem_values_key_iff_lookup (build_wf cache new hwf)
      (build_nodup cache new)).mpr hlook
    exact List.mem_map.mpr ⟨r, List.mem_filter.mpr
      ⟨hrv.1, (contains_iff_mem_nat _ _).mpr htier⟩, hrv.2⟩

/-- **C1** (amended): when every submitted fund is cached the run leaves
the persisted file untouched; otherwise the final persisted ResultSet has
at most one Record per key, and its key set is exactly (uncached
submitted keys) ∪ (cached keys whose cached record's tier is targeted).
(As stated the claim fails: stale cached keys that were not submitted
survive the merge, and a submitted key cached with an untargeted tier is
dropped; see the counterexample.) -/
theorem final_resultset_keys (funds : List Fund) (oracle : String → ScrapeOut)
    (t2 : Bool) (prior : FileState)
    (hft : ∀ f ∈ funds, f.tier ∈ targetTiers t2) :
    (funds.filter (fun f => (List.lookup f.key (loadCache prior)).isNone) = [] →
      (runMain funds oracle t2 prior).finalFile = prior) ∧
    (funds.filter (fun f => (List.lookup f.key (loadCache prior)).isNone) ≠ [] →
      ((fileData (runMain funds oracle t2 prior).finalFile).map Record.key).Nodup ∧
      ∀ k, k ∈ (fileData (runMain funds oracle t2 prior).finalFile).map Record.key ↔
        ((∃ f ∈ funds, f.key = k) ∧ List.lookup k (loadCache prior) = none) ∨
        (∃ r, List.lookup k (loadCache prior) = some r ∧
          r.tier ∈ targetTiers t2)) := by
  constructor
  · intro hempty
    simp only [runMain]
    rw [hempty]
    simp
  · intro hne
    have hdata : fileData (runMain funds oracle t2 prior).finalFile =
        mergeResults (loadCache prior)
          ((funds.filter
            (fun f => (List.lookup f.key (loadCache prior)).isNone)).map
            (fun f => mkResult f (oracle f.key))) t2 := by
      simp only [runMain]
      rw [if_neg hne]
      rfl
    rw [hdata]
    have hcwf := loadCache_wf prior
    have hcnd := loadCache_nodup prior
    refine ⟨nodup_keys_mergeResults _ _ _ hcwf, ?_⟩
    intro k
    rw [mem_keys_mergeResults _ _ _ _ hcwf]
    set toScrape :=
      funds.filter (fun f => (List.lookup f.key (loadCache prior)).isNone) with hts
    set new := toScrape.map (fun f => mkResult f (oracle f.key)) with hnew
    have hkeys : new.map Record.key = toScrape.map Fund.key := by
      rw [hnew, List.map_map]
      exact List.map_congr_left (fun f _ => rfl)
    by_cases hmem : k ∈ new.map Record.key
    · -- k is among the newly scraped keys: present with the fund tier;
      -- the right side holds through its first disjunct.
      rcases lookup_newFold_mem new _ k hmem with ⟨r, hr, hrk, hlook⟩
      rcases List.mem_map.mp (hkeys ▸ hmem) with ⟨f, hf, hfk⟩
      have hffunds : f ∈ funds := List.mem_filter.mp hf |>.1
      have hfnone : List.lookup f.key (loadCache prior) = none := by
        have := List.mem_filter.mp hf |>.2
        simp only [Option.isNone_iff_eq_none, decide_eq_true_eq] at this
        exact this
      rcases List.mem_map.mp (hnew ▸ hr) with ⟨g, hg, hgr⟩
      have hrtier : r.tier ∈ targetTiers t2 := by
        rw [← hgr]
        exact hft g (List.mem_filter.mp hg |>.1)
      constructor
      · intro _
        exact Or.inl ⟨⟨f, hffunds, hfk⟩, hfk ▸ hfnone⟩
      · intro _
        exact ⟨r, by
          show List.lookup k (buildAllResultsMap (loadCache prior) new) = some r
          exact hlook, hrtier⟩
    · have hbuild := lookup_build_not_new (loadCache prior) new k hcnd hmem
      cases hcl : List.lookup k (loadCache prior) with
      | some rc =>
        rw [hcl] at hbuild
        have hb2 : List.lookup k (buildAllResultsMap (loadCache prior) new) =
            some (ensureUrl k rc) := hbuild
        constructor
        · rintro ⟨r, hlook, htier⟩
          rw [hb2] at hlook
          injection hlook with hre
          refine Or.inr ⟨rc, rfl, ?_⟩
          rw [← hre, ensureUrl_tier] at htier
          exact htier
        · rintro (⟨_, hnone⟩ | ⟨r, hlook, htier⟩)
          · cases hnone
          · injection hlook with hrc
            exact ⟨ensureUrl k rc, hb2,
              by rw [ensureUrl_tier, hrc]; exact htier⟩
      | none =>
        rw [hcl] at hbuild
        have hb2 : List.lookup k (buildAllResultsMap (loadCache prior) new) =
            none := hbuild
        constructor
        · rintro ⟨r, hlook, _⟩
          rw [hb2] at hlook
          cases hlook
        · rintro (⟨⟨f, hf, hfk⟩, hnone⟩ | ⟨r, hlook, _⟩)
          · exfalso
            apply hmem
            rw [hkeys]
            refine List.mem_map.mpr ⟨f, ?_, hfk⟩
            rw [hts]
            refine List.mem_filter.mpr ⟨hf, ?_⟩
            simp only [decide_eq_true_eq, Option.isNone_iff_eq_none]
            rw [hfk]
            exact hcl
          · cases hlook

/-- Witness for `final_resultset_keys`: one uncached fund `a` plus a stale
cached key `x`; both end up in the final key set. -/
theorem final_resultset_keys_witness :
    (∀ f ∈ [fundA], f.tier ∈ targetTiers false) ∧
    "x" ∈ (fileData (runMain [fundA] okOracle false
      (.valid ⟨[recX], false, 1, 1, 0⟩)).finalFile).map Record.key := by
  have h := final_resultset_keys [fundA] okOracle false
    (.valid ⟨[recX], false, 1, 1, 0⟩) (by decide)
  refine ⟨by decide, ?_⟩
  exact ((h.2 (by decide)).2 "x").mpr (Or.inr ⟨recX, by decide, by decide⟩)

/-- **C1** counterexample: one submitted key `a`, but the persisted file
also keeps the stale cached key `x`, so the Record count (2) exceeds the
number of unique submitted keys (1) and an unsubmitted key is present. -/
theorem final_resultset_keys_cex :
    [fundA].map Fund.key = ["a"] ∧
    (fileData (runMain [fundA] okOracle false
      (.valid ⟨[recX], false, 1, 1, 0⟩)).finalFile).map Record.key = ["a", "x"] := by
  exact ⟨rfl, by decide⟩

/-- **C8**: the loop over `f :: rest` targets produces the per-unit blocks
`[fetch, persist]` joined by single `throttleDelay` events: the delay runs
exactly `K - 1` times, after each unit except the last and never before
the first. -/
theorem throttle_between_units (f : Fund) (rest : List Fund) :
    loopEvents (f :: rest) =
      List.intercalate [Event.throttleDelay]
        ((f :: rest).map (fun g => [Event.fetch g.key, Event.persist])) ∧
    (loopEvents (f :: rest)).count Event.throttleDelay = (f :: rest).length - 1 := by
  induction rest generalizing f with
  | nil =>
    constructor
    · rfl
    · rfl
  | cons g rest ih =>
    constructor
    · show Event.fetch f.key :: Event.persist :: Event.throttleDelay ::
        loopEvents (g :: rest) = _
      rw [(ih g).1]
      simp [List.intercalate, List.intersperse_cons₂, List.flatten]
    · show (Event.fetch f.key :: Event.persist :: Event.throttleDelay ::
        loopEvents (g :: rest)).count Event.throttleDelay = _
      rw [List.count_cons, List.count_cons, List.count_cons, (ih g).2]
      have h1 : (Event.throttleDelay == Event.throttleDelay) = true := rfl
      have h2 : (Event.persist == Event.throttleDelay) = false := rfl
      have h3 : (Event.fetch f.key == Event.throttleDelay) = false := rfl
      rw [h1, h2, h3]
      simp

/-! ## `extractUniqueProjects` (claim C10) -/

theorem firstDedupBy_cons (f : Round → Option String) (x : Round) (xs : List Round) :
    firstDedupBy f (x :: xs) = x :: firstDedupBy f (xs.filter (fun y => f y ≠ f x)) := by
  rw [firstDedupBy]

theorem extractGo_eq (rounds : List Round) :
    ∀ seen : List String,
      extractGo seen rounds =
        (firstDedupBy Round.projectKey
          (rounds.filter (fun r => truthyKey r && keyUnseen seen r))).map mkProj := by
  induction rounds with
  | nil =>
    intro seen
    simp only [List.filter_nil]
    rw [firstDedupBy]
    rfl
  | cons r rest ih =>
    intro seen
    rw [List.filter_cons]
    cases hk : r.projectKey with
    | none =>
      rw [if_neg (by simp [truthyKey, truthy, hk])]
      rw [← ih seen]
      simp only [extractGo, hk]
    | some k =>
      by_cases hke : k = ""
      · rw [if_neg (by simp [truthyKey, truthy, hk, hke])]
        rw [← ih seen]
        simp only [extractGo, hk]
        rw [if_neg (by simp [hke])]
      · by_cases hseen : k ∈ seen
        · rw [if_neg (by
            simp [truthyKey, truthy, keyUnseen, hk, List.elem_iff, hseen])]
          rw [← ih seen]
          simp only [extractGo, hk]
          rw [if_neg (by simp [hseen])]
        · rw [if_pos (by
            simp [truthyKey, truthy, keyUnseen, hk, hke, List.elem_iff, hseen])]
          rw [firstDedupBy_cons, List.map_cons]
          have hfil : (rest.filter (fun r => truthyKey r && keyUnseen seen r)).filter
              (fun y => y.projectKey ≠ r.projectKey) =
              rest.filter (fun y => truthyKey y && keyUnseen (k :: seen) y) := by
            rw [List.filter_filter]
            apply List.filter_congr
            intro y _
            cases hy : y.projectKey with
            | none => simp [truthyKey, truthy, keyUnseen, hy]
            | some k2 =>
              simp only [truthyKey, truthy, keyUnseen, hy, hk, List.contains_cons,
                ne_eq, Option.some.injEq, Bool.not_or, decide_not]
              cases hsc : seen.contains k2 <;> by_cases h1 : k2 = k <;>
                by_cases h2 : k2 = "" <;> simp [h1, h2]
          rw [hfil, ← ih (k :: seen)]
          simp only [extractGo, hk]
          rw [if_pos ⟨hke, hseen⟩]

/-- **C10**: `extractUniqueProjects` returns exactly one entry per
distinct truthy `projectKey`, taken from that key's first occurrence in
input order and listed in first-occurrence order; rounds with a missing
or falsy key contribute nothing — stated as a refinement against the
claim-modelled `extractUniqueProjectsSpec`. -/
theorem extractUniqueProjects_spec (rounds : List Round) :
    extractUniqueProjects rounds = extractUniqueProjectsSpec rounds := by
  rw [extractUniqueProjects, extractGo_eq rounds [], extractUniqueProjectsSpec]
  have hpred : rounds.filter (fun r => truthyKey r && keyUnseen [] r) =
      rounds.filter truthyKey :=
    List.filter_congr (fun y _ => by
      cases hy : y.projectKey <;> simp [truthyKey, truthy, keyUnseen, hy])
  rw [hpred]

/-! ## `parseRaiseAmount` (claim C9) -/

theorem filter_upper_digits (body : List Char) (hd : ∀ c ∈ body, c ∈ digitDotChars) :
    (body.filter (fun c => !(c = '$' || c = ',' || isJsSpace c))).map Char.toUpper =
      body := by
  rw [List.filter_eq_self.mpr (fun a ha => by
    have hmem := hd a ha
    fin_cases hmem <;> rfl)]
  calc body.map Char.toUpper = body.map id :=
      List.map_congr_left (fun a ha => by
        have hmem := hd a ha
        fin_cases hmem <;> rfl)
    _ = body := List.map_id body

theorem clean_digits (body : List Char) (hd : ∀ c ∈ body, c ∈ digitDotChars) :
    cleanAmount ⟨body⟩ = body :=
  filter_upper_digits body hd

theorem clean_digits_concat (body : List Char) (c : Char)
    (hd : ∀ x ∈ body, x ∈ digitDotChars) (hc : c ∈ ['K', 'M', 'B', 'k']) :
    cleanAmount ⟨body ++ [c]⟩ = body ++ [c.toUpper] := by
  have h0 : cleanAmount ⟨body ++ [c]⟩ =
      ((body ++ [c]).filter (fun x => !(x = '$' || x = ',' || isJsSpace x))).map
        Char.toUpper := rfl
  rw [h0, List.filter_append, List.map_append, filter_upper_digits body hd]
  congr 1
  fin_cases hc <;> rfl

theorem amountMatch_digits (body : List Char) (hb : body ≠ [])
    (hd : ∀ c ∈ body, c ∈ digitDotChars) :
    amountMatch body = some (body, none) := by
  rcases List.eq_nil_or_concat' body with rfl | ⟨b2, lc, rfl⟩
  · exact absurd rfl hb
  · have hlc : lc ∈ digitDotChars :=
      hd lc (List.mem_append_right _ (List.mem_singleton.mpr rfl))
    have hKMB : ¬((lc = 'K' || lc = 'M' || lc = 'B') = true) := by
      fin_cases hlc <;> decide
    have hall : ((b2 ++ [lc]).all isDigitOrDot) = true :=
      List.all_eq_true.mpr (fun x hx => by
        have hmem := hd x hx
        fin_cases hmem <;> rfl)
    simp only [amountMatch, List.getLast?_concat]
    rw [if_neg hKMB, if_pos hall]

theorem amountMatch_concat (body : List Char) (c : Char) (hb : body ≠ [])
    (hd : ∀ x ∈ body, x ∈ digitDotChars) (hc : c ∈ ['K', 'M', 'B']) :
    amountMatch (body ++ [c]) = some (body, some c) := by
  have hKMB : ((c = 'K' || c = 'M' || c = 'B') = true) := by fin_cases hc <;> decide
  have hall : (body.all isDigitOrDot) = true :=
    List.all_eq_true.mpr (fun x hx => by
      have hmem := hd x hx
      fin_cases hmem <;> rfl)
  simp only [amountMatch, List.getLast?_concat]
  rw [if_pos hKMB, List.dropLast_concat, if_pos ⟨hb, hall⟩]

theorem mk_concat_ne (body : List Char) (c : Char) (t : String)
    (hct : t.data.getLast? ≠ some c) : String.mk (body ++ [c]) ≠ t := by
  intro h
  apply hct
  have h2 : t.data = body ++ [c] := (congrArg String.data h).symm
  rw [h2, List.getLast?_concat]

theorem parseRaiseAmount_eq (s : String) (hne : ¬(s = "" ∨ s = "-" ∨ s = "N/A"))
    (body : List Char) (suf : Option Char) (q : ℚ)
    (hm : amountMatch (cleanAmount s) = some (body, suf))
    (hq : jsParseFloatDigits body = some q) :
    parseRaiseAmount s = some (q * multVal suf) := by
  unfold parseRaiseAmount
  rw [if_neg hne]
  simp only [hm, hq]

theorem parseRaiseAmount_none_nomatch (s : String)
    (hne : ¬(s = "" ∨ s = "-" ∨ s = "N/A"))
    (hm : amountMatch (cleanAmount s) = none) : parseRaiseAmount s = none := by
  unfold parseRaiseAmount
  rw [if_neg hne]
  simp only [hm]

theorem parseRaiseAmount_none_nan (s : String)
    (hne : ¬(s = "" ∨ s = "-" ∨ s = "N/A")) (body : List Char) (suf : Option Char)
    (hm : amountMatch (cleanAmount s) = some (body, suf))
    (hq : jsParseFloatDigits body = none) : parseRaiseAmount s = none := by
  unfold parseRaiseAmount
  rw [if_neg hne]
  simp only [hm, hq]

/-- **C9** (amended): `parseRaiseAmount` yields `null` on `''`, `'-'`,
`'N/A'`, on any input whose cleaned (`$`/commas/whitespace removed —
including the Unicode whitespace JS `\s` matches — then uppercased) form
does not match `^([\d.]+)([KMB])?$`, **and on a matched digits-and-dots
part in which `parseFloat` finds no leading number (e.g. `'.'`)**;
otherwise it returns the parsed leading number times 1000 for `K`/`k`,
1000000 for `M`, 1000000000 for `B`, and 1 with no suffix — exercised
both generally over raw inputs and concretely on `'$5.5M'` (5500000),
on `'5\u00A0M'` (5000000, the non-breaking space removed by `\s`) and on
`'$1,200 K'` (1200000). -/
theorem parseRaiseAmount_spec (body : List Char) (q : ℚ) (hb : body ≠ [])
    (hd : ∀ c ∈ body, c ∈ digitDotChars) (hq : jsParseFloatDigits body = some q) :
    parseRaiseAmount ⟨body⟩ = some q ∧
    parseRaiseAmount ⟨body ++ ['K']⟩ = some (q * 1000) ∧
    parseRaiseAmount ⟨body ++ ['M']⟩ = some (q * 1000000) ∧
    parseRaiseAmount ⟨body ++ ['B']⟩ = some (q * 1000000000) ∧
    parseRaiseAmount ⟨body ++ ['k']⟩ = some (q * 1000) ∧
    parseRaiseAmount "" = none ∧ parseRaiseAmount "-" = none ∧
    parseRaiseAmount "N/A" = none ∧
    (∀ s : String, ¬(s = "" ∨ s = "-" ∨ s = "N/A") →
      amountMatch (cleanAmount s) = none → parseRaiseAmount s = none) ∧
    (∀ (s : String) (b2 : List Char) (suf : Option Char),
      ¬(s = "" ∨ s = "-" ∨ s = "N/A") →
      amountMatch (cleanAmount s) = some (b2, suf) →
      jsParseFloatDigits b2 = none → parseRaiseAmount s = none) ∧
    (∀ (s : String) (b2 : List Char) (suf : Option Char) (q2 : ℚ),
      ¬(s = "" ∨ s = "-" ∨ s = "N/A") →
      amountMatch (cleanAmount s) = some (b2, suf) →
      jsParseFloatDigits b2 = some q2 →
      parseRaiseAmount s = some (q2 * multVal suf)) ∧
    parseRaiseAmount "$5.5M" = some 5500000 ∧
    parseRaiseAmount "5\u00A0M" = some 5000000 ∧
    parseRaiseAmount "$1,200 K" = some 1200000 := by
  have hneB : ¬(String.mk body = "" ∨ String.mk body = "-" ∨
      String.mk body = "N/A") := by
    rintro (h | h | h)
    · exact hb (congrArg String.data h)
    · have h2 : body = ['-'] := congrArg String.data h
      have hmem : '-' ∈ body := by rw [h2]; exact List.mem_singleton.mpr rfl
      exact absurd (hd '-' hmem) (by decide)
    · have h2 : body = ['N', '/', 'A'] := congrArg String.data h
      have hmem : 'N' ∈ body := by rw [h2]; exact List.mem_cons_self _ _
      exact absurd (hd 'N' hmem) (by decide)
  have hm1 : amountMatch (cleanAmount ⟨body⟩) = some (body, none) := by
    rw [clean_digits body hd]
    exact amountMatch_digits body hb hd
  have hsuffix : ∀ c ∈ (['K', 'M', 'B'] : List Char),
      parseRaiseAmount ⟨body ++ [c]⟩ = some (q * multVal (some c)) := by
    intro c hc
    have hne2 : ¬(String.mk (body ++ [c]) = "" ∨ String.mk (body ++ [c]) = "-" ∨
        String.mk (body ++ [c]) = "N/A") := by
      rintro (h | h | h)
      · exact mk_concat_ne body c "" (by fin_cases hc <;> decide) h
      · exact mk_concat_ne body c "-" (by fin_cases hc <;> decide) h
      · exact mk_concat_ne body c "N/A" (by fin_cases hc <;> decide) h
    have hm2 : amountMatch (cleanAmount ⟨body ++ [c]⟩) = some (body, some c) := by
      have hup : c.toUpper = c := by fin_cases hc <;> rfl
      rw [clean_digits_concat body c hd (by fin_cases hc <;> decide), hup]
      exact amountMatch_concat body c hb hd hc
    exact parseRaiseAmount_eq ⟨body ++ [c]⟩ hne2 body (some c) q hm2 hq
  refine ⟨?_, ?_, ?_, ?_, ?_, rfl, rfl, rfl, ?_, ?_, ?_, ?_, ?_, ?_⟩
  · have h := parseRaiseAmount_eq ⟨body⟩ hneB body none q hm1 hq
    rw [h]
    have hmv : multVal none = 1 := rfl
    rw [hmv, mul_one]
  · have h := hsuffix 'K' (by decide)
    rw [h]
    simp [multVal]
  · have h := hsuffix 'M' (by decide)
    rw [h]
    simp [multVal]
  · have h := hsuffix 'B' (by decide)
    rw [h]
    simp [multVal]
  · have hne2 : ¬(String.mk (body ++ ['k']) = "" ∨ String.mk (body ++ ['k']) = "-" ∨
        String.mk (body ++ ['k']) = "N/A") := by
      rintro (h | h | h)
      · exact mk_concat_ne body 'k' "" (by decide) h
      · exact mk_concat_ne body 'k' "-" (by decide) h
      · exact mk_concat_ne body 'k' "N/A" (by decide) h
    have hm2 : amountMatch (cleanAmount ⟨body ++ ['k']⟩) = some (body, some 'K') := by
      have hup : ('k').toUpper = 'K' := rfl
      rw [clean_digits_concat body 'k' hd (by decide), hup]
      exact amountMatch_concat body 'K' hb hd (by decide)
    have h := parseRaiseAmount_eq ⟨body ++ ['k']⟩ hne2 body (some 'K') q hm2 hq
    rw [h]
    simp [multVal]
  · intro s hne hm
    exact parseRaiseAmount_none_nomatch s hne hm
  · intro s b2 suf hne hm hq2
    exact parseRaiseAmount_none_nan s hne b2 suf hm hq2
  · intro s b2 suf q2 hne hm hq2
    exact parseRaiseAmount_eq s hne b2 suf q2 hm hq2
  · have hq2 : jsParseFloatDigits ['5', '.', '5'] = some (5 + 5 / 10 ^ 1) := rfl
    have h := parseRaiseAmount_eq "$5.5M" (by decide) ['5', '.', '5'] (some 'M')
      (5 + 5 / 10 ^ 1) (by decide) hq2
    rw [h]
    simp only [multVal]
    norm_num
  · have hq2 : jsParseFloatDigits ['5'] = some 5 := rfl
    have h := parseRaiseAmount_eq "5\u00A0M" (by decide) ['5'] (some 'M') 5
      (by decide) hq2
    rw [h]
    simp only [multVal]
    norm_num
  · have hq2 : jsParseFloatDigits ['1', '2', '0', '0'] = some 1200 := rfl
    have h := parseRaiseAmount_eq "$1,200 K" (by decide) ['1', '2', '0', '0']
      (some 'K') 1200 (by decide) hq2
    rw [h]
    simp only [multVal]
    norm_num

/-- Witness for `parseRaiseAmount_spec` at the digit string `'5'`. -/
theorem parseRaiseAmount_spec_witness :
    (['5'] : List Char) ≠ [] ∧ jsParseFloatDigits ['5'] = some 5 ∧
    parseRaiseAmount ⟨['5'] ++ ['M']⟩ = some (5 * 1000000) ∧
    parseRaiseAmount ⟨['5']⟩ = some 5 := by
  have h := parseRaiseAmount_spec ['5'] 5 (by decide) (by decide) rfl
  exact ⟨by decide, rfl, h.2.2.1, h.1⟩

/-- **C9** counterexample: `'.'` is none of the null-listed inputs and its
cleaned form matches `^([\d.]+)$`, yet `parseFloat('.')` is `NaN` and the
function returns `null` — the claim's "otherwise it returns the parsed
leading number" fails at `'.'`. -/
theorem parseRaiseAmount_cex :
    amountMatch (cleanAmount ".") = some (['.'], none) ∧
    parseRaiseAmount "." = none := by
  exact ⟨by decide, by decide⟩

end CryptoRankScraper
